import Mathlib

/-!
# Verification of the incremental ingestion and merge engine

Shallow embedding of the merge / incremental-append logic of the
`api-data-pipeline` repository (`main.py`, `FranciscoPremuz_ingestion.py`,
`FranciscoPremuz_transformations.py`) together with proofs of the
behavioural properties claimed in its specification.

Modelling conventions:
* a dataframe row carries the two columns every property talks about —
  the ordering/key column `datetime` and the numeric column `close` —
  plus an opaque payload `other` standing for the remaining columns.
  A missing value (pandas `NaT` / `NaN`) is `none`.
* timestamps and prices are modelled as `Int` (only their linear order
  and equality are ever used by the code under study).
* a Delta table as seen through the storage layer is either absent
  (`none`: `TableNotFoundError`) or a list of rows.
* derived presentation columns the code adds (`date`, `month`,
  `close_fx`, `ingestion_timestamp`) are pure functions of the modelled
  columns and of the run's clock and are not represented as fields:
  no claim mentions them and they do not influence any branch of the
  merge logic.
-/

/-- One dataframe row: the ordering/key column `datetime`, the validated
numeric column `close` (both nullable, `none` = `NaT`/`NaN`) and an
opaque stand-in for all remaining column values. -/
structure Row where
  datetime : Option Int
  close : Option Int
  other : Int
deriving DecidableEq, Repr

/-- `df.drop_duplicates(subset=["datetime"], keep="last")`
(transformations.py:211 and 227): keep, in original order, each row whose
`datetime` does not occur again later; pandas treats two missing values
as duplicates of each other, hence plain `Option` equality. -/
def dedupLast : List Row → List Row
  | [] => []
  | r :: rs =>
    if rs.any (fun x => x.datetime == r.datetime) then dedupLast rs
    else r :: dedupLast rs

/-- `df_silver_prev["datetime"].max()` (transformations.py:193): pandas
`Series.max` skips missing values and returns `NaT` (here `none`) on an
all-missing or empty column. -/
def maxD : List Row → Option Int
  | [] => none
  | r :: rs =>
    match maxD rs, r.datetime with
    | none, d => d
    | some m, none => some m
    | some m, some d => some (max m d)

/-- The incremental filter `df = df[df["datetime"] > max_dt]`
(transformations.py:192-197): when no previous silver table exists the
whole history is processed; otherwise only rows strictly newer than the
previously persisted maximum are kept (a pandas comparison against a
missing watermark or with a missing `datetime` is `False`). -/
def wmFilter (st : Option (List Row)) (b : List Row) : List Row :=
  match st with
  | none => b
  | some cur =>
    match maxD cur with
    | none => []
    | some m =>
      b.filter (fun r =>
        match r.datetime with
        | some d => decide (m < d)
        | none => false)

/-- Sort key for `df.sort_values("datetime")` (transformations.py:211):
missing timestamps are placed last (`na_position="last"`). -/
def dtW (r : Row) : WithTop Int :=
  match r.datetime with
  | some d => (d : WithTop Int)
  | none => ⊤

/-- Row comparison used by the sort. -/
def rowLE (a b : Row) : Prop := dtW a ≤ dtW b

instance : DecidableRel rowLE := fun a b =>
  inferInstanceAs (Decidable (dtW a ≤ dtW b))

/-- `df.sort_values("datetime")` (transformations.py:211). The pandas
sort is applied after deduplication, so its keys are pairwise distinct
and any comparison sort computes the same ordering; we model it with
insertion sort. -/
def sortRows (l : List Row) : List Row := List.insertionSort rowLE l

/-- Forward fill of the `close` column, first argument = last non-missing
value seen so far (`df[num_cols].ffill()`, transformations.py:217; the
other numeric columns are filled independently in the same way and are
abstracted into `Row.other`). -/
def ffillClose : Option Int → List Row → List Row
  | _, [] => []
  | prev, r :: rs =>
    match r.close with
    | some c => r :: ffillClose (some c) rs
    | none => { r with close := prev } :: ffillClose prev rs

/-- Backward fill `.bfill()` (transformations.py:217): forward fill of
the reversed frame. -/
def bfillClose (l : List Row) : List Row :=
  (ffillClose none l.reverse).reverse

/-- The validity filter `df = df[df["close"] > 0]`
(transformations.py:220, ingestion.py:252): a missing value compares
`False`. -/
def closePos (r : Row) : Bool :=
  match r.close with
  | some c => decide (0 < c)
  | none => false

/-- Row has a non-missing `datetime` (`df.dropna(subset=["datetime"])`,
transformations.py:214). -/
def hasDT (r : Row) : Bool := r.datetime.isSome

/-- The batch the silver-crypto transform derives from the bronze input
before writing, following transformations.py lines 190-227 in program
order: incremental watermark filter, deduplication by `datetime`
(keep last), sort, removal of rows without a valid date, forward/backward
fill of the numeric columns, removal of non-positive prices, and the
final defensive deduplication before the append. -/
def silverBatch (st : Option (List Row)) (b : List Row) : List Row :=
  dedupLast
    (((bfillClose
          (ffillClose none
            ((sortRows (dedupLast (wmFilter st b))).filter hasDT))).filter
        closePos))

/-- The full INCREMENTAL_APPEND apply: the derived batch is written with
`mode="append"` (transformations.py:257-258); appending to an absent
table creates it, so the post-state is previous contents followed by the
new batch. -/
def silverCryptoApply (st : Option (List Row)) (b : List Row) : List Row :=
  (st.getD []) ++ silverBatch st b

/-- SQL equality of the merge predicate
`target.datetime = source.datetime` (ingestion.py:159 / main.py:225):
a missing key matches nothing, not even another missing key. -/
def keyMatch (s t : Row) : Bool :=
  match s.datetime, t.datetime with
  | some a, some b => a == b
  | _, _ => false

/-- Result of `when_matched_update_all` for one target row: the first
matching source row replaces every column of the target row, an
unmatched target row is untouched. (Delta aborts when the match is not
unique; see `mergeError`, under which this function is only evaluated on
rows with at most one match, making first = the match.) -/
def updatedRow (source : List Row) (t : Row) : Row :=
  match source.find? (fun s => keyMatch s t) with
  | some s => s
  | none => t

/-- `when_not_matched_insert_all`: source rows that match no current
target row are inserted. -/
def mergeInserts (target source : List Row) : List Row :=
  source.filter (fun s => !target.any (fun t => keyMatch s t))

/-- The Delta merge aborts with an error when several source rows match
the same target row. -/
def mergeError (target source : List Row) : Bool :=
  target.any (fun t => 2 ≤ (source.filter (fun s => keyMatch s t)).length)

/-- `dt.merge(...).when_matched_update_all().when_not_matched_insert_all()
.execute()` (ingestion.py:155-163, main.py:221-226): `none` models the
raised merge error, in which case nothing is committed. Row order inside
a Delta table is not observable; the model fixes updated target rows
first, then the inserted source rows in batch order. -/
def mergeRows (target source : List Row) : Option (List Row) :=
  if mergeError target source then none
  else some (target.map (updatedRow source) ++ mergeInserts target source)

/-- The three merge policies of the spec, §3/§4.1: OVERWRITE is the
`save_data_as_delta(..., mode="overwrite")` path of the static dataset,
UPSERT the `DeltaTable`+`merge` path of the dynamic dataset, and
INCREMENTAL_APPEND the watermark/append path of the silver transform. -/
inductive MergePolicy
  | overwrite
  | upsert
  | incrementalAppend
deriving DecidableEq, Repr

/-- Outcome of one `apply`: whether the storage operation succeeded, and
the table state visible afterwards (unchanged when the merge aborted:
a failed Delta commit writes nothing). -/
structure ApplyResult where
  ok : Bool
  state : Option (List Row)
deriving DecidableEq, Repr

/-- The Merge Engine `apply(descriptor, incoming)`, by policy:
* OVERWRITE — `write_deltalake(..., mode="overwrite")`
  (ingestion.py:140-148, 330);
* UPSERT — read the table, on `TableNotFoundError` bootstrap by writing
  the incoming batch as-is with `mode="overwrite"`, otherwise run the
  keyed merge (ingestion.py:150-165, 262-289);
* INCREMENTAL_APPEND — the silver transform followed by an append
  (transformations.py:190-258). -/
def applyPolicy : MergePolicy → Option (List Row) → List Row → ApplyResult
  | .overwrite, _, b => ⟨true, some b⟩
  | .upsert, none, b => ⟨true, some b⟩
  | .upsert, some t, b =>
    match mergeRows t b with
    | some t2 => ⟨true, some t2⟩
    | none => ⟨false, some t⟩
  | .incrementalAppend, st, b => ⟨true, some (silverCryptoApply st b)⟩

/-- The precondition the spec (§4.1) puts on `incoming`: the caller's
cleaning step has already removed invalid rows. For the datasets of this
repository that step is ingestion.py:251-252
(`dropna(subset=["datetime","close"])` followed by `close > 0`), so a
batch reaching the engine has a present `datetime` and a present,
strictly positive `close` in every row. -/
def ValidBatch (b : List Row) : Prop :=
  ∀ r ∈ b, hasDT r = true ∧ closePos r = true

instance : DecidablePred ValidBatch := fun b =>
  List.decidableBAll _ b

/-- Pairwise-distinct key values in a batch. -/
def UniqueKeys (l : List Row) : Prop :=
  (l.map Row.datetime).Pairwise (· ≠ ·)

instance : DecidablePred UniqueKeys := fun l =>
  inferInstanceAs (Decidable ((l.map Row.datetime).Pairwise _))

/-- The watermark as the specification defines it (§3): the maximum
ordering value of the previously persisted state, with an absent table
giving −∞ (process full history). -/
def specWatermark (st : Option (List Row)) : WithBot Int :=
  match st with
  | none => ⊥
  | some cur =>
    match maxD cur with
    | none => ⊥
    | some m => (m : WithBot Int)

/-- Modelled from the specification's words for claim C2: keep exactly
the incoming rows whose ordering value is strictly greater than the
watermark, deduplicate them by ordering value keeping the last row in
batch order, and append the result to the existing state. -/
def specIncrementalApply (st : Option (List Row)) (b : List Row) : List Row :=
  (st.getD []) ++
    dedupLast (b.filter (fun r =>
      match r.datetime with
      | some d => decide (specWatermark st < (d : WithBot Int))
      | none => false))

/-- Well-formedness of a persisted state for watermark computation: if a
table is present, its `datetime` column has at least one non-missing
value (so the watermark `max()` is defined). An absent table is fine. -/
def WFState : Option (List Row) → Prop
  | none => True
  | some cur => maxD cur ≠ none

instance : DecidablePred WFState := fun st =>
  match st with
  | none => isTrue trivial
  | some cur => inferInstanceAs (Decidable (maxD cur ≠ none))

/-- Find the table row holding key `k` (first match; unique on tables
with pairwise-distinct keys). -/
def lookupKey (l : List Row) (k : Int) : Option Row :=
  l.find? (fun r => r.datetime == some k)

/-- A stored Delta table as the `deltalake` library observes it: absent
(`DeltaTable(...)` raises `TableNotFoundError`), readable, or failing
for any other reason — backend unreachable, permission denied, malformed
log — in which case some other exception is raised. -/
inductive TableState
  | absent
  | table (rows : List Row)
  | corrupt
deriving DecidableEq, Repr

/-- `DeltaTable(path)` followed by `.to_pandas()`: the rows on success,
an exception otherwise; the exception kind distinguishes not-found from
every other storage failure. -/
def deltaRead : TableState → Except String (List Row)
  | .table rows => .ok rows
  | .absent => .error "TableNotFoundError"
  | .corrupt => .error "DeltaError"

/-- The local branch of `safe_read_delta` (transformations.py:115-126):
a missing path, or any exception from the read, yields `None`. -/
def safeReadLocal (loc : TableState) : Option (List Row) :=
  match deltaRead loc with
  | .ok df => some df
  | .error _ => none

/-- `safe_read_delta(local_path, s3_path, storage_options)`
(transformations.py:99-126): try MinIO when an s3 path is configured and
fall back to the local store on any exception there; the caller receives
either the dataframe or `None` — its only failure signal. -/
def safe_read_delta (s3 : Option TableState) (loc : TableState) :
    Option (List Row) :=
  match s3 with
  | some remote =>
    match deltaRead remote with
    | .ok df => some df
    | .error _ => safeReadLocal loc
  | none => safeReadLocal loc

/-- Configuration and failure modes of one `write_delta` call: whether
an s3 path plus storage options are configured, and whether the MinIO
and local `write_deltalake` calls raise. -/
structure WriteEnv where
  s3Configured : Bool
  s3Fails : Bool
  localFails : Bool
deriving DecidableEq, Repr

/-- The two Delta stores (MinIO bucket and local path) a run writes
through. -/
structure Stores where
  remote : TableState
  loc : TableState
deriving DecidableEq, Repr

/-- The write modes `write_delta` is called with. -/
inductive WriteMode
  | overwriteMode
  | appendMode
deriving DecidableEq, Repr

/-- `write_deltalake(path, df, mode=...)` on one store: overwrite
replaces the contents, append concatenates (creating the table when it
does not yet exist). Failures are modelled exogenously by `WriteEnv`. -/
def applyWrite : WriteMode → TableState → List Row → TableState
  | .overwriteMode, _, df => .table df
  | .appendMode, st, df =>
    match st with
    | .table rows => .table (rows ++ df)
    | _ => .table df

/-- `write_delta` (transformations.py:129-162): try MinIO when
configured, on an exception fall back to a local write, and swallow a
local failure after printing it. It returns `None` in Python in every
case: the stores are the only observable effect, there is no error
result. -/
def write_delta (env : WriteEnv) (mode : WriteMode) (df : List Row)
    (st : Stores) : Stores :=
  if env.s3Configured && !env.s3Fails then
    { st with remote := applyWrite mode st.remote df }
  else if !env.localFails then
    { st with loc := applyWrite mode st.loc df }
  else st

/-- How a run of the TP2 script terminates. -/
inductive RunTerm
  | normal
  | earlyExit
  | crash
deriving DecidableEq, Repr

/-- Control-flow model of the transformation script
(transformations.py), as a function of what its three storage reads
return: the bronze crypto read (line 170), the bronze fx read
(line 171), and the re-read of the silver crypto table at the gold
stage (line 292). Produces the names of the datasets whose
transform-and-write step is reached, in program order, and the way the
run ends:
* bronze crypto read `None` → `exit(0)` at line 175, before any dataset;
* silver-crypto read `None` at the gold stage → uncaught
  `AttributeError` at line 294 (`None.groupby`), ending the run before
  both gold datasets;
* the fx datasets (lines 269-284, 314-323) run only when the bronze fx
  read produced a frame;
* `write_delta` failures never alter control flow — they are swallowed
  inside `write_delta` (see its definition). -/
def runTransformations
    (bronzeCrypto bronzeFx silverAtGold : Option (List Row)) :
    List String × RunTerm :=
  match bronzeCrypto with
  | none => ([], .earlyExit)
  | some _ =>
    match silverAtGold with
    | none =>
      (["silver_crypto"] ++ (if bronzeFx.isSome then ["silver_fx"] else []),
        .crash)
    | some _ =>
      (["silver_crypto"] ++ (if bronzeFx.isSome then ["silver_fx"] else [])
        ++ ["gold_crypto"]
        ++ (if bronzeFx.isSome then ["gold_fx"] else []),
        .normal)

/-- A parsed JSON object from the upstream API, as far as the ingestion
code inspects it: its top-level keys, the parsed daily series rows
(consumed when a "Time Series ..." key is present), and the field names
of the "Realtime Currency Exchange Rate" record. -/
structure ApiResponse where
  keys : List String
  series : List Row
  fxFields : List String
deriving DecidableEq, Repr

/-- Normal or exceptional termination of a Python code block. -/
inductive PyOutcome (α : Type)
  | ok (a : α)
  | raises (exn : String)
deriving DecidableEq, Repr

/-- `build_dynamic_table` (ingestion.py:81-105, main.py:49-73): `None`
when no top-level key starts with "Time Series" (a message is printed),
otherwise the shaped frame — the dataframe shaping itself is abstracted
to the parsed series rows. -/
def build_dynamic_table (resp : ApiResponse) : Option (List Row) :=
  match resp.keys.find? (fun k => k.startsWith "Time Series") with
  | none => none
  | some _ => some resp.series

/-- The bronze cleaning of the dynamic batch (ingestion.py:251-252):
`dropna(subset=["datetime", "close"])` followed by `close > 0`. -/
def cleanDynamic (df : List Row) : List Row :=
  (df.filter (fun r => hasDT r && r.close.isSome)).filter closePos

/-- The dynamic ingestion step (ingestion.py:247-252): `None` from
`get_data` (HTTP error or non-JSON body) skips the whole block
normally; but on a JSON body without a time-series key,
`build_dynamic_table` returns `None` and the very next statement
`df_dynamic["ingestion_timestamp"] = datetime.now()` (ingestion.py:250)
raises an uncaught TypeError on `None`. The same shape crashes
main.py:213 with an AttributeError at `df_dynamic.head()`. -/
def ingest_dynamic (resp : Option ApiResponse) :
    PyOutcome (Option (List Row)) :=
  match resp with
  | none => .ok none
  | some r =>
    match build_dynamic_table r with
    | none => .raises "TypeError"
    | some df => .ok (some (cleanDynamic df))

/-- `remove_duplicate_columns` (ingestion.py:168-179, main.py:132-143),
inner loop over the column list: a name already seen is emitted with the
constant suffix "_dup" (and is not remembered); a first occurrence is
kept and added to `seen`. -/
def removeDupColsGo : List String → List String → List String
  | _, [] => []
  | seen, c :: cs =>
    if c ∈ seen then (c ++ "_dup") :: removeDupColsGo seen cs
    else c :: removeDupColsGo (c :: seen) cs

/-- `remove_duplicate_columns(df)` as a function of the column names. -/
def remove_duplicate_columns (cols : List String) : List String :=
  removeDupColsGo [] cols

/-- One header normalization of `build_static_table`
(ingestion.py:124-125): drop the leading index token
(`c.split(" ")[1:]`), join the remaining tokens with underscores, and
lower-case the result. -/
def normalizeHeader (c : String) : String :=
  (String.intercalate "_" ((c.splitOn " ").drop 1)).toLower

/-- The candidate name the collision loop builds:
`f"{base_name}_{counter}"` (ingestion.py:131). -/
def suffixedName (base : String) (k : Nat) : String :=
  base ++ "_" ++ Nat.repr k

/-- The collision loop of `build_static_table` (ingestion.py:127-132):
starting from `counter = 1`, try `base_1`, `base_2`, ... until a
candidate not in `seen` is found. The Python `while` terminates because
the candidates are pairwise distinct and `seen` is finite; the model
searches the first `seen.length + 1` candidates, among which a fresh one
provably exists (`freshSuffix_not_mem`), so the fallback branch is
unreachable. -/
def freshSuffix (seen : List String) (base : String) : String :=
  match ((List.range (seen.length + 1)).map
      (fun i => suffixedName base (i + 1))).find?
      (fun c => !(seen.contains c)) with
  | some c => c
  | none => base

/-- The final name chosen for one header: the base name when unused so
far, otherwise the first fresh numbered candidate
(ingestion.py:128-132). -/
def freshName (seen : List String) (base : String) : String :=
  if base ∈ seen then freshSuffix seen base else base

/-- The renaming loop of `build_static_table` (ingestion.py:119-137):
normalize each header in order, disambiguate against the names chosen so
far, and remember the chosen name. -/
def buildColumnsGo : List String → List String → List String
  | _, [] => []
  | seen, c :: cs =>
    freshName seen (normalizeHeader c)
      :: buildColumnsGo (freshName seen (normalizeHeader c) :: seen) cs

/-- The full column renaming of `build_static_table`. -/
def normalizeColumns (cols : List String) : List String :=
  buildColumnsGo [] cols

/-- `build_static_table` (ingestion.py:107-138): `None` when the
exchange-rate record is missing (its KeyError is caught and a message
printed), otherwise the one-row frame, represented by its normalized and
disambiguated column names — the only content the claims mention. -/
def build_static_table (resp : ApiResponse) : Option (List String) :=
  if "Realtime Currency Exchange Rate" ∈ resp.keys then
    some (normalizeColumns resp.fxFields)
  else none

/-- The static ingestion step of ingestion.py:318-321: a `None` response
skips the block normally; a JSON body without the exchange-rate key
makes `build_static_table` return `None`, and the next call
`remove_duplicate_columns(df_static)` (ingestion.py:321) raises an
uncaught AttributeError on `None.columns`. -/
def ingest_static (resp : Option ApiResponse) :
    PyOutcome (Option (List String)) :=
  match resp with
  | none => .ok none
  | some r =>
    match build_static_table r with
    | none => .raises "AttributeError"
    | some cols => .ok (some (remove_duplicate_columns cols))

/-- The static ingestion step of main.py:284-291: same flow, except that
main.py's `build_static_table` (main.py:75-78) does not catch the
KeyError, so a missing exchange-rate key raises it directly. -/
def ingest_static_main (resp : Option ApiResponse) :
    PyOutcome (Option (List String)) :=
  match resp with
  | none => .ok none
  | some r =>
    match build_static_table r with
    | none => .raises "KeyError"
    | some cols => .ok (some (remove_duplicate_columns cols))

/-- The decimal digit characters of `n`, most significant first —
the character list `Nat.repr` produces (proved in `repr_eq_reprChars`),
restated through Mathlib's `Nat.digits` so that injectivity facts become
available. -/
def reprChars (n : Nat) : List Char :=
  if n = 0 then ['0'] else ((Nat.digits 10 n).map Nat.digitChar).reverse

section BasicLemmas

theorem dedupLast_subset {l : List Row} {r : Row} (h : r ∈ dedupLast l) :
    r ∈ l := by
  induction l with
  | nil => simp [dedupLast] at h
  | cons a rs ih =>
    by_cases hd : rs.any (fun x => x.datetime == a.datetime)
    · simp only [dedupLast, hd, if_true] at h
      exact List.mem_cons_of_mem _ (ih h)
    · simp only [dedupLast, hd, if_false] at h
      rcases List.mem_cons.mp h with rfl | h
      · exact List.mem_cons_self _ _
      · exact List.mem_cons_of_mem _ (ih h)

theorem dedupLast_dt_surj (l : List Row) :
    ∀ r ∈ l, ∃ x ∈ dedupLast l, x.datetime = r.datetime := by
  induction l with
  | nil => intro r h; cases h
  | cons a rs ih =>
    intro r h
    by_cases hd : rs.any (fun x => x.datetime == a.datetime)
    · simp only [dedupLast, hd, if_true]
      rcases List.mem_cons.mp h with rfl | h
      · rcases List.any_eq_true.mp hd with ⟨x, hx, hbeq⟩
        rcases ih x hx with ⟨y, hy, hdty⟩
        exact ⟨y, hy, by rw [hdty, beq_iff_eq.mp hbeq]⟩
      · exact ih r h
    · simp only [dedupLast, hd, if_false]
      rcases List.mem_cons.mp h with rfl | h
      · exact ⟨r, List.mem_cons_self _ _, rfl⟩
      · rcases ih r h with ⟨y, hy, hdty⟩
        exact ⟨y, List.mem_cons_of_mem _ hy, hdty⟩

theorem dedupLast_pairwise (l : List Row) :
    ((dedupLast l).map Row.datetime).Pairwise (· ≠ ·) := by
  induction l with
  | nil => simp [dedupLast]
  | cons a rs ih =>
    by_cases hd : rs.any (fun x => x.datetime == a.datetime)
    · simpa only [dedupLast, hd, if_true] using ih
    · simp only [dedupLast, hd, if_false, List.map_cons]
      refine List.Pairwise.cons ?_ ih
      intro v hv hva
      rcases List.mem_map.mp hv with ⟨x, hx, hdtx⟩
      have hx' : x ∈ rs := dedupLast_subset hx
      exact hd (List.any_eq_true.mpr ⟨x, hx', beq_iff_eq.mpr (hdtx.trans hva.symm)⟩)

theorem dedupLast_eq_self {l : List Row}
    (h : (l.map Row.datetime).Pairwise (· ≠ ·)) : dedupLast l = l := by
  induction l with
  | nil => rfl
  | cons a rs ih =>
    rw [List.map_cons, List.pairwise_cons] at h
    have hd : rs.any (fun x => x.datetime == a.datetime) = false := by
      rw [List.any_eq_false]
      intro x hx
      simp only [beq_iff_eq]
      exact fun he => h.1 x.datetime (List.mem_map_of_mem _ hx) he.symm
    simp only [dedupLast, hd, Bool.false_eq_true, if_false, ih h.2]

theorem dedupLast_eq_nil_iff {l : List Row} : dedupLast l = [] ↔ l = [] := by
  constructor
  · intro h
    cases l with
    | nil => rfl
    | cons a rs =>
      exfalso
      by_cases hd : rs.any (fun x => x.datetime == a.datetime)
      · simp only [dedupLast, hd, if_true] at h
        rcases List.any_eq_true.mp hd with ⟨x, hx, _⟩
        rcases dedupLast_dt_surj rs x hx with ⟨y, hy, _⟩
        rw [h] at hy
        cases hy
      · simp [dedupLast, hd] at h
  · rintro rfl; rfl

theorem maxD_eq_none_iff {l : List Row} :
    maxD l = none ↔ ∀ r ∈ l, r.datetime = none := by
  induction l with
  | nil => simp [maxD]
  | cons a rs ih =>
    simp only [maxD]
    constructor
    · intro h
      cases hmr : maxD rs with
      | none =>
        rw [hmr] at h
        intro r hr
        rcases List.mem_cons.mp hr with rfl | hr
        · exact h
        · exact ih.mp hmr r hr
      | some m =>
        rw [hmr] at h
        cases hadt : a.datetime <;> rw [hadt] at h <;> cases h
    · intro h
      have hrs : maxD rs = none := ih.mpr fun r hr => h r (List.mem_cons_of_mem _ hr)
      rw [hrs, h a (List.mem_cons_self _ _)]

theorem maxD_le {l : List Row} {m : Int} (h : maxD l = some m) :
    ∀ r ∈ l, ∀ d, r.datetime = some d → d ≤ m := by
  induction l generalizing m with
  | nil => simp [maxD] at h
  | cons a rs ih =>
    intro r hr d hd
    simp only [maxD] at h
    rcases List.mem_cons.mp hr with rfl | hr
    · cases hmr : maxD rs with
      | none =>
        rw [hmr, hd] at h
        exact le_of_eq (Option.some_injective _ h)
      | some m2 =>
        rw [hmr, hd] at h
        cases h
        exact le_max_right _ _
    · cases hmr : maxD rs with
      | none =>
        exact absurd (maxD_eq_none_iff.mp hmr r hr) (by rw [hd]; simp)
      | some m2 =>
        rw [hmr] at h
        have hle := ih hmr r hr d hd
        cases hadt : a.datetime with
        | none =>
          rw [hadt] at h
          cases h
          exact hle
        | some d2 =>
          rw [hadt] at h
          cases h
          exact hle.trans (le_max_left _ _)

theorem maxD_mem {l : List Row} {m : Int} (h : maxD l = some m) :
    ∃ r ∈ l, r.datetime = some m := by
  induction l generalizing m with
  | nil => simp [maxD] at h
  | cons a rs ih =>
    simp only [maxD] at h
    cases hmr : maxD rs with
    | none =>
      rw [hmr] at h
      exact ⟨a, List.mem_cons_self _ _, h⟩
    | some m2 =>
      rw [hmr] at h
      cases hadt : a.datetime with
      | none =>
        rw [hadt] at h
        cases h
        rcases ih hmr with ⟨r, hr, hdt⟩
        exact ⟨r, List.mem_cons_of_mem _ hr, hdt⟩
      | some d =>
        rw [hadt] at h
        cases h
        rcases le_total m2 d with hle | hle
        · exact ⟨a, List.mem_cons_self _ _, by rw [hadt, max_eq_right hle]⟩
        · rcases ih hmr with ⟨r, hr, hdt⟩
          exact ⟨r, List.mem_cons_of_mem _ hr, by rw [hdt, max_eq_left hle]⟩

theorem maxD_isSome_of_mem {l : List Row} {r : Row} {d : Int}
    (hr : r ∈ l) (hd : r.datetime = some d) : ∃ m, maxD l = some m := by
  cases hm : maxD l with
  | none => exact absurd (maxD_eq_none_iff.mp hm r hr) (by rw [hd]; simp)
  | some m => exact ⟨m, rfl⟩

end BasicLemmas

section FillSortLemmas

theorem ffillClose_of_allSome {l : List Row} (p : Option Int)
    (h : ∀ r ∈ l, r.close.isSome = true) : ffillClose p l = l := by
  induction l generalizing p with
  | nil => rfl
  | cons a rs ih =>
    have ha := h a (List.mem_cons_self _ _)
    cases hc : a.close with
    | none => rw [hc] at ha; cases ha
    | some c =>
      simp only [ffillClose, hc]
      rw [ih (some c) fun r hr => h r (List.mem_cons_of_mem _ hr)]

theorem bfillClose_of_allSome {l : List Row}
    (h : ∀ r ∈ l, r.close.isSome = true) : bfillClose l = l := by
  unfold bfillClose
  rw [ffillClose_of_allSome none fun r hr => h r (List.mem_reverse.mp hr),
    List.reverse_reverse]

theorem map_dt_ffillClose (p : Option Int) (l : List Row) :
    (ffillClose p l).map Row.datetime = l.map Row.datetime := by
  induction l generalizing p with
  | nil => rfl
  | cons a rs ih =>
    cases hc : a.close with
    | none => simp only [ffillClose, hc, List.map_cons, ih]
    | some c => simp only [ffillClose, hc, List.map_cons, ih]

theorem map_dt_bfillClose (l : List Row) :
    (bfillClose l).map Row.datetime = l.map Row.datetime := by
  unfold bfillClose
  rw [List.map_reverse, map_dt_ffillClose, ← List.map_reverse,
    List.reverse_reverse]

theorem sortRows_perm (l : List Row) : List.Perm (sortRows l) l :=
  List.perm_insertionSort rowLE l

theorem wmFilter_subset {st : Option (List Row)} {b : List Row} {r : Row}
    (h : r ∈ wmFilter st b) : r ∈ b := by
  cases st with
  | none => exact h
  | some cur =>
    simp only [wmFilter] at h
    cases hm : maxD cur with
    | none => rw [hm] at h; cases h
    | some m => rw [hm] at h; exact List.mem_of_mem_filter h

/-- On a batch whose rows all carry a present `datetime` and a positive
`close` — which is what the bronze cleaning step guarantees — the silver
transform reduces to: watermark filter, deduplication by `datetime`
keeping the last occurrence, and a sort. -/
theorem silverBatch_of_valid {st : Option (List Row)} {b : List Row}
    (hb : ValidBatch b) :
    silverBatch st b = sortRows (dedupLast (wmFilter st b)) := by
  unfold silverBatch
  have hmem : ∀ r ∈ sortRows (dedupLast (wmFilter st b)),
      hasDT r = true ∧ closePos r = true := by
    intro r hr
    exact hb r (wmFilter_subset (dedupLast_subset ((sortRows_perm _).mem_iff.mp hr)))
  have hna : (sortRows (dedupLast (wmFilter st b))).filter hasDT
      = sortRows (dedupLast (wmFilter st b)) :=
    List.filter_eq_self.mpr fun r hr => (hmem r hr).1
  rw [hna]
  have hsome : ∀ r ∈ sortRows (dedupLast (wmFilter st b)), r.close.isSome = true := by
    intro r hr
    have hcp := (hmem r hr).2
    unfold closePos at hcp
    cases hc : r.close with
    | none => rw [hc] at hcp; cases hcp
    | some c => simp
  rw [ffillClose_of_allSome none hsome, bfillClose_of_allSome hsome]
  have hpos : (sortRows (dedupLast (wmFilter st b))).filter closePos
      = sortRows (dedupLast (wmFilter st b)) :=
    List.filter_eq_self.mpr fun r hr => (hmem r hr).2
  rw [hpos]
  apply dedupLast_eq_self
  have hperm : List.Perm ((sortRows (dedupLast (wmFilter st b))).map Row.datetime)
      ((dedupLast (wmFilter st b)).map Row.datetime) :=
    (sortRows_perm _).map _
  exact (List.Perm.pairwise_iff (fun h => Ne.symm h) hperm).mpr (dedupLast_pairwise _)

end FillSortLemmas

theorem silverBatch_mem_valid {st : Option (List Row)} {b : List Row} :
    ∀ r ∈ silverBatch st b, hasDT r = true ∧ closePos r = true := by
  intro r hr
  unfold silverBatch at hr
  have hpos : r ∈ (bfillClose
      (ffillClose none
        ((sortRows (dedupLast (wmFilter st b))).filter hasDT))).filter closePos :=
    dedupLast_subset hr
  refine ⟨?_, (List.mem_filter.mp hpos).2⟩
  have hfill : r ∈ bfillClose
      (ffillClose none ((sortRows (dedupLast (wmFilter st b))).filter hasDT)) :=
    List.mem_of_mem_filter hpos
  have hdtmem : r.datetime ∈ (bfillClose
      (ffillClose none ((sortRows (dedupLast (wmFilter st b))).filter hasDT))).map
      Row.datetime :=
    List.mem_map_of_mem _ hfill
  rw [map_dt_bfillClose, map_dt_ffillClose] at hdtmem
  rcases List.mem_map.mp hdtmem with ⟨x, hx, hdtx⟩
  have hxdt : hasDT x = true := (List.mem_filter.mp hx).2
  unfold hasDT at hxdt ⊢
  rw [← hdtx]
  exact hxdt

/-- C10: every batch the silver transformation appends to the crypto
clean table contains only rows with a non-missing `datetime` and a
`close` strictly greater than 0; consequently, if the previously
persisted silver state satisfies this predicate, so does the whole
post-state of a run — the predicate is an invariant of the silver crypto
table preserved by every run, including the bootstrap run on an absent
table. -/
theorem silver_crypto_invariant (st : Option (List Row)) (b : List Row)
    (hprev : ∀ r ∈ st.getD [], hasDT r = true ∧ closePos r = true) :
    ∀ r ∈ silverCryptoApply st b, hasDT r = true ∧ closePos r = true := by
  intro r hr
  unfold silverCryptoApply at hr
  rcases List.mem_append.mp hr with hr | hr
  · exact hprev r hr
  · exact silverBatch_mem_valid r hr

theorem silver_crypto_invariant_witness :
    (∀ r ∈ (some [Row.mk (some 0) (some 7) 0]).getD [],
      hasDT r = true ∧ closePos r = true) ∧
    ∀ r ∈ silverCryptoApply (some [Row.mk (some 0) (some 7) 0])
      [Row.mk (some 1) (some 2) 1, Row.mk none (some 3) 2,
       Row.mk (some 2) none 3, Row.mk (some 2) (some (-1)) 4],
      hasDT r = true ∧ closePos r = true :=
  ⟨by decide,
    silver_crypto_invariant (some [Row.mk (some 0) (some 7) 0])
      [Row.mk (some 1) (some 2) 1, Row.mk none (some 3) 2,
       Row.mk (some 2) none 3, Row.mk (some 2) (some (-1)) 4] (by decide)⟩

/-- C2: on cleaned input (the engine's precondition) and a well-formed
persisted state, the INCREMENTAL_APPEND apply equals — up to the final
sort, i.e. as a multiset — the specification's description: compute the
watermark as the maximum ordering value of the current state (absent
table = −∞, full history), keep exactly the incoming rows strictly newer
than it, deduplicate the kept rows by ordering value keeping the last
row in batch order, and append the result to the existing state. -/
theorem incremental_apply_matches_spec (st : Option (List Row)) (b : List Row)
    (hb : ValidBatch b) (hst : WFState st) :
    List.Perm (silverCryptoApply st b) (specIncrementalApply st b) := by
  unfold silverCryptoApply specIncrementalApply
  apply List.Perm.append_left
  rw [silverBatch_of_valid hb]
  have hf : wmFilter st b = b.filter (fun r =>
      match r.datetime with
      | some d => decide (specWatermark st < (d : WithBot Int))
      | none => false) := by
    cases st with
    | none =>
      show b = _
      symm
      apply List.filter_eq_self.mpr
      intro r hr
      rcases hb r hr with ⟨hdt, _⟩
      unfold hasDT at hdt
      cases hd : r.datetime with
      | none => rw [hd] at hdt; cases hdt
      | some d => simp [specWatermark, WithBot.bot_lt_coe]
    | some cur =>
      cases hm : maxD cur with
      | none => exact absurd hm hst
      | some m =>
        show (match maxD cur with
          | none => []
          | some m =>
            b.filter (fun (r : Row) =>
              match r.datetime with
              | some d => decide (m < d)
              | none => false)) = _
        rw [hm]
        apply List.filter_congr
        intro r hr
        cases hd : r.datetime with
        | none => rfl
        | some d => simp [specWatermark, hm]
  rw [hf]
  exact sortRows_perm _

theorem incremental_apply_matches_spec_witness :
    ValidBatch
      [Row.mk (some 2) (some 3) 1, Row.mk (some 2) (some 4) 2,
        Row.mk (some 0) (some 5) 3] ∧
    WFState (some [Row.mk (some 1) (some 2) 0]) ∧
    List.Perm
      (silverCryptoApply (some [Row.mk (some 1) (some 2) 0])
        [Row.mk (some 2) (some 3) 1, Row.mk (some 2) (some 4) 2,
          Row.mk (some 0) (some 5) 3])
      (specIncrementalApply (some [Row.mk (some 1) (some 2) 0])
        [Row.mk (some 2) (some 3) 1, Row.mk (some 2) (some 4) 2,
          Row.mk (some 0) (some 5) 3]) :=
  ⟨by decide, by decide,
    incremental_apply_matches_spec (some [Row.mk (some 1) (some 2) 0])
      [Row.mk (some 2) (some 3) 1, Row.mk (some 2) (some 4) 2,
        Row.mk (some 0) (some 5) 3] (by decide) (by decide)⟩

/-- C4: applying any of the three policies to an ABSENT table does not
fail: absence is the defined bootstrap path, and the resulting state is
(up to the physical order fixed by the sort of the incremental path) the
incoming batch itself — which on unique keys coincides with its
deduplication. -/
theorem bootstrap_absent_table (p : MergePolicy) (b : List Row)
    (hb : ValidBatch b) (hu : UniqueKeys b) :
    (applyPolicy p none b).ok = true ∧
    ∃ s, (applyPolicy p none b).state = some s ∧ List.Perm s b := by
  cases p with
  | overwrite => exact ⟨rfl, b, rfl, List.Perm.refl b⟩
  | upsert => exact ⟨rfl, b, rfl, List.Perm.refl b⟩
  | incrementalAppend =>
    refine ⟨rfl, silverCryptoApply none b, rfl, ?_⟩
    show List.Perm (silverBatch none b) b
    rw [silverBatch_of_valid hb]
    show List.Perm (sortRows (dedupLast b)) b
    rw [dedupLast_eq_self hu]
    exact sortRows_perm b

theorem bootstrap_absent_table_witness :
    ValidBatch [Row.mk (some 1) (some 4) 0, Row.mk (some 3) (some 5) 1] ∧
    UniqueKeys [Row.mk (some 1) (some 4) 0, Row.mk (some 3) (some 5) 1] ∧
    ((applyPolicy .incrementalAppend none
        [Row.mk (some 1) (some 4) 0, Row.mk (some 3) (some 5) 1]).ok = true ∧
      ∃ s, (applyPolicy .incrementalAppend none
          [Row.mk (some 1) (some 4) 0, Row.mk (some 3) (some 5) 1]).state = some s ∧
        List.Perm s [Row.mk (some 1) (some 4) 0, Row.mk (some 3) (some 5) 1]) :=
  ⟨by decide, by decide,
    bootstrap_absent_table .incrementalAppend
      [Row.mk (some 1) (some 4) 0, Row.mk (some 3) (some 5) 1]
      (by decide) (by decide)⟩

section Idempotence

/-- Re-running the silver transform on an unchanged bronze batch derives
an empty increment: after the first append every incoming row is at or
below the new watermark (or was filtered away below the old one). -/
theorem silverBatch_idem {st : Option (List Row)} {b : List Row}
    (hb : ValidBatch b) :
    silverBatch (some (silverCryptoApply st b)) b = [] := by
  have key : wmFilter (some (silverCryptoApply st b)) b = [] := by
    cases hM : maxD (silverCryptoApply st b) with
    | none =>
      show (match maxD (silverCryptoApply st b) with
        | none => ([] : List Row)
        | some m => b.filter (fun (r : Row) =>
            match r.datetime with
            | some d => decide (m < d)
            | none => false)) = []
      rw [hM]
    | some M =>
      show (match maxD (silverCryptoApply st b) with
        | none => ([] : List Row)
        | some m => b.filter (fun (r : Row) =>
            match r.datetime with
            | some d => decide (m < d)
            | none => false)) = []
      rw [hM]
      apply List.filter_eq_nil_iff.mpr
      intro r hr
      rcases hb r hr with ⟨hdt, _⟩
      unfold hasDT at hdt
      cases hd : r.datetime with
      | none => simp
      | some d =>
        simp only [decide_eq_true_eq, Bool.not_eq_true]
        have hdM : d ≤ M := by
          by_cases hpass : r ∈ wmFilter st b
          · rcases dedupLast_dt_surj _ r hpass with ⟨x, hx, hdtx⟩
            have hx2 : x ∈ silverBatch st b := by
              rw [silverBatch_of_valid hb]
              exact (sortRows_perm _).mem_iff.mpr hx
            have hx3 : x ∈ silverCryptoApply st b :=
              List.mem_append.mpr (Or.inr hx2)
            exact maxD_le hM x hx3 d (by rw [hdtx, hd])
          · cases st with
            | none => exact absurd hr hpass
            | some cur =>
              cases hm : maxD cur with
              | none =>
                exfalso
                have hempty : wmFilter (some cur) b = [] := by
                  show (match maxD cur with
                    | none => ([] : List Row)
                    | some m => b.filter (fun (r : Row) =>
                        match r.datetime with
                        | some d => decide (m < d)
                        | none => false)) = []
                  rw [hm]
                have hs1 : silverCryptoApply (some cur) b = cur := by
                  show cur ++ silverBatch (some cur) b = cur
                  rw [silverBatch_of_valid hb, hempty]
                  show cur ++ [] = cur
                  exact List.append_nil cur
                rw [hs1, hm] at hM
                cases hM
              | some m =>
                have hdm : d ≤ m := by
                  by_contra hlt
                  apply hpass
                  show r ∈ (match maxD cur with
                    | none => ([] : List Row)
                    | some m => b.filter (fun (r : Row) =>
                        match r.datetime with
                        | some d => decide (m < d)
                        | none => false))
                  rw [hm]
                  refine List.mem_filter.mpr ⟨hr, ?_⟩
                  rw [hd]
                  simpa using lt_of_not_ge hlt
                have hmM : m ≤ M := by
                  rcases maxD_mem hm with ⟨rc, hrc, hdtc⟩
                  have hrc1 : rc ∈ silverCryptoApply (some cur) b :=
                    List.mem_append.mpr (Or.inl hrc)
                  exact maxD_le hM rc hrc1 m hdtc
                exact hdm.trans hmM
        simpa using not_lt.mpr hdM
  unfold silverBatch
  rw [key]
  rfl

end Idempotence

section UpsertLemmas

theorem keyMatch_true_iff {s t : Row} :
    keyMatch s t = true ↔ ∃ d, s.datetime = some d ∧ t.datetime = some d := by
  unfold keyMatch
  cases hs : s.datetime with
  | none => simp
  | some a =>
    cases ht : t.datetime with
    | none => simp
    | some c =>
      simp only [beq_iff_eq, Option.some_inj]
      constructor
      · rintro rfl
        exact ⟨a, rfl, rfl⟩
      · rintro ⟨d, rfl, rfl⟩
        rfl

theorem keyMatch_dt_congr {x y : Row} (h : x.datetime = y.datetime) (s : Row) :
    keyMatch s x = keyMatch s y := by
  unfold keyMatch
  rw [h]

theorem keyMatch_self {s : Row} (h : hasDT s = true) : keyMatch s s = true := by
  unfold hasDT at h
  cases hd : s.datetime with
  | none => rw [hd] at h; cases h
  | some d => exact keyMatch_true_iff.mpr ⟨d, hd, hd⟩

theorem find?_key_congr {x y : Row} (h : x.datetime = y.datetime)
    (src : List Row) :
    src.find? (fun s => keyMatch s x) = src.find? (fun s => keyMatch s y) := by
  have hp : (fun s => keyMatch s x) = (fun s => keyMatch s y) :=
    funext fun s => keyMatch_dt_congr h s
  rw [hp]

theorem updatedRow_dt (src : List Row) (t : Row) :
    (updatedRow src t).datetime = t.datetime := by
  unfold updatedRow
  cases hf : src.find? (fun s => keyMatch s t) with
  | none => rfl
  | some s =>
    have hk := List.find?_some hf
    rcases keyMatch_true_iff.mp hk with ⟨d, hs, ht⟩
    rw [hs, ht]

theorem find?_eq_head_filter (p : Row → Bool) (l : List Row) :
    l.find? p = (l.filter p).head? := by
  induction l with
  | nil => rfl
  | cons a rs ih =>
    cases hp : p a with
    | true =>
      rw [List.find?_cons_of_pos _ hp, List.filter_cons_of_pos hp]
      rfl
    | false =>
      rw [List.find?_cons_of_neg _ (by simp [hp]), List.filter_cons_of_neg (by simp [hp])]
      exact ih

theorem singleton_of_length_le_one {l : List Row} {u : Row}
    (hlen : l.length ≤ 1) (hu : u ∈ l) : l = [u] := by
  cases l with
  | nil => cases hu
  | cons a rs =>
    cases rs with
    | nil =>
      rcases List.mem_cons.mp hu with rfl | hu
      · rfl
      · cases hu
    | cons c cs => simp at hlen

theorem mergeError_false_iff {t b : List Row} :
    mergeError t b = false ↔
      ∀ x ∈ t, (b.filter (fun s => keyMatch s x)).length ≤ 1 := by
  unfold mergeError
  rw [List.any_eq_false]
  constructor
  · intro h x hx
    have h2 := h x hx
    rw [decide_eq_true_eq] at h2
    omega
  · intro h x hx
    rw [decide_eq_true_eq]
    have h2 := h x hx
    omega

theorem mergeRows_eq_some {t b t1 : List Row} (h : mergeRows t b = some t1) :
    mergeError t b = false ∧
      t1 = t.map (updatedRow b) ++ mergeInserts t b := by
  unfold mergeRows at h
  cases he : mergeError t b with
  | true => rw [he] at h; simp at h
  | false =>
    rw [he] at h
    simp only [Bool.false_eq_true, if_false] at h
    exact ⟨rfl, (Option.some_inj.mp h).symm⟩

theorem mergeRows_nil (b : List Row) : mergeRows [] b = some b := by
  unfold mergeRows mergeError mergeInserts
  simp only [List.any_nil, Bool.false_eq_true, if_false, List.map_nil,
    List.nil_append, Option.some_inj]
  apply List.filter_eq_self.mpr
  intro a _
  rfl

theorem mergeRows_restabilizes {t b t1 : List Row}
    (hb : ∀ r ∈ b, hasDT r = true)
    (h1 : mergeRows t b = some t1) :
    ∀ t2, mergeRows t1 b = some t2 → t2 = t1 := by
  intro t2 h2
  rcases mergeRows_eq_some h1 with ⟨he1, ht1⟩
  rcases mergeRows_eq_some h2 with ⟨he2, ht2⟩
  have hcount := mergeError_false_iff.mp he2
  have hfix : ∀ u ∈ t1, updatedRow b u = u := by
    intro u hu1
    have hu : u ∈ t.map (updatedRow b) ++ mergeInserts t b := ht1 ▸ hu1
    rcases List.mem_append.mp hu with hu | hu
    · rcases List.mem_map.mp hu with ⟨t0, ht0, rfl⟩
      cases hf : b.find? (fun s => keyMatch s t0) with
      | none =>
        have hu0 : updatedRow b t0 = t0 := by unfold updatedRow; rw [hf]
        rw [hu0]
        unfold updatedRow
        rw [hf]
      | some s0 =>
        have hu0 : updatedRow b t0 = s0 := by unfold updatedRow; rw [hf]
        have hk := List.find?_some hf
        rcases keyMatch_true_iff.mp hk with ⟨d, hs0, ht0d⟩
        have hdt : s0.datetime = t0.datetime := by rw [hs0, ht0d]
        rw [hu0]
        unfold updatedRow
        rw [find?_key_congr hdt b, hf]
    · have hub : u ∈ b := List.mem_of_mem_filter hu
      have humem : u ∈ b.filter (fun s => keyMatch s u) :=
        List.mem_filter.mpr ⟨hub, keyMatch_self (hb u hub)⟩
      have hfil : b.filter (fun s => keyMatch s u) = [u] :=
        singleton_of_length_le_one (hcount u hu1) humem
      unfold updatedRow
      rw [find?_eq_head_filter, hfil]
      rfl
  have hins : mergeInserts t1 b = [] := by
    unfold mergeInserts
    apply List.filter_eq_nil_iff.mpr
    intro s hs
    suffices hany : t1.any (fun tt => keyMatch s tt) = true by simp [hany]
    cases hts : t.any (fun tt => keyMatch s tt) with
    | true =>
      rcases List.any_eq_true.mp hts with ⟨t0, ht0, hk⟩
      apply List.any_eq_true.mpr
      refine ⟨updatedRow b t0, ?_, ?_⟩
      · rw [ht1]
        exact List.mem_append.mpr (Or.inl (List.mem_map_of_mem _ ht0))
      · rw [keyMatch_dt_congr (updatedRow_dt b t0) s]
        exact hk
    | false =>
      apply List.any_eq_true.mpr
      refine ⟨s, ?_, keyMatch_self (hb s hs)⟩
      rw [ht1]
      refine List.mem_append.mpr (Or.inr ?_)
      exact List.mem_filter.mpr ⟨hs, by rw [hts]; rfl⟩
  rw [ht2, hins, List.append_nil]
  calc t1.map (updatedRow b) = t1.map id := List.map_congr_left hfix
    _ = t1 := List.map_id t1

end UpsertLemmas

/-- C1: on cleaned input (the engine's precondition, ingestion.py:251-252)
applying the identical incoming batch twice in immediate succession
leaves the table state after the second apply identical to the state
after the first, for all three merge policies and any starting state —
including the case in which the second merge aborts, since an aborted
Delta commit changes nothing. -/
theorem apply_idempotent (p : MergePolicy) (st : Option (List Row))
    (b : List Row) (hb : ValidBatch b) :
    (applyPolicy p (applyPolicy p st b).state b).state
      = (applyPolicy p st b).state := by
  have hbd : ∀ r ∈ b, hasDT r = true := fun r hr => (hb r hr).1
  cases p with
  | overwrite => rfl
  | incrementalAppend =>
    show some (silverCryptoApply (some (silverCryptoApply st b)) b)
        = some (silverCryptoApply st b)
    have h1 : silverCryptoApply (some (silverCryptoApply st b)) b
        = silverCryptoApply st b := by
      show silverCryptoApply st b ++ silverBatch (some (silverCryptoApply st b)) b
          = silverCryptoApply st b
      rw [silverBatch_idem hb, List.append_nil]
    rw [h1]
  | upsert =>
    cases st with
    | none =>
      show (applyPolicy .upsert (some b) b).state = some b
      simp only [applyPolicy]
      cases h2 : mergeRows b b with
      | none => rfl
      | some t2 =>
        have ht2 := mergeRows_restabilizes hbd (mergeRows_nil b) t2 h2
        rw [ht2]
    | some t =>
      simp only [applyPolicy]
      cases h1 : mergeRows t b with
      | none =>
        simp only [applyPolicy, h1]
      | some t1 =>
        simp only [applyPolicy]
        cases h2 : mergeRows t1 b with
        | none => rfl
        | some t2 =>
          have ht2 := mergeRows_restabilizes hbd h1 t2 h2
          rw [ht2]

theorem apply_idempotent_witness :
    ValidBatch [Row.mk (some 5) (some 9) 0, Row.mk (some 6) (some 1) 1] ∧
    (applyPolicy .upsert
        (applyPolicy .upsert (some [Row.mk (some 5) (some 2) 7])
          [Row.mk (some 5) (some 9) 0, Row.mk (some 6) (some 1) 1]).state
        [Row.mk (some 5) (some 9) 0, Row.mk (some 6) (some 1) 1]).state
      = (applyPolicy .upsert (some [Row.mk (some 5) (some 2) 7])
          [Row.mk (some 5) (some 9) 0, Row.mk (some 6) (some 1) 1]).state :=
  ⟨by decide,
    apply_idempotent .upsert (some [Row.mk (some 5) (some 2) 7])
      [Row.mk (some 5) (some 9) 0, Row.mk (some 6) (some 1) 1] (by decide)⟩

section UpsertCorrectness

theorem filter_keyMatch_len_le_one {b : List Row} (hu : UniqueKeys b)
    (x : Row) : (b.filter (fun s => keyMatch s x)).length ≤ 1 := by
  induction b with
  | nil => simp
  | cons a rs ih =>
    have hu' : (Row.datetime a :: rs.map Row.datetime).Pairwise (· ≠ ·) := by
      have h0 : ((a :: rs).map Row.datetime).Pairwise (· ≠ ·) := hu
      rwa [List.map_cons] at h0
    have hp := List.pairwise_cons.mp hu'
    cases hpa : keyMatch a x with
    | false =>
      rw [List.filter_cons]
      simp only [hpa, Bool.false_eq_true, if_false]
      exact ih hp.2
    | true =>
      rw [List.filter_cons]
      simp only [hpa, if_true]
      have hnil : rs.filter (fun s => keyMatch s x) = [] := by
        apply List.filter_eq_nil_iff.mpr
        intro s hs hks
        rcases keyMatch_true_iff.mp hks with ⟨k, hsk, hxk⟩
        rcases keyMatch_true_iff.mp hpa with ⟨k2, hak, hxk2⟩
        have hkk : k2 = k := by
          have := hxk2.symm.trans hxk
          exact Option.some_inj.mp this
        exact hp.1 s.datetime (List.mem_map_of_mem _ hs)
          (by rw [hak, hsk, hkk])
      rw [hnil]
      simp

theorem find?_dt_unique {l : List Row} (hu : UniqueKeys l) {r : Row} {k : Int}
    (hr : r ∈ l) (hk : r.datetime = some k) :
    l.find? (fun x => x.datetime == some k) = some r := by
  induction l with
  | nil => cases hr
  | cons a rs ih =>
    have hu' : (Row.datetime a :: rs.map Row.datetime).Pairwise (· ≠ ·) := by
      have h0 : ((a :: rs).map Row.datetime).Pairwise (· ≠ ·) := hu
      rwa [List.map_cons] at h0
    have hp := List.pairwise_cons.mp hu'
    rcases List.mem_cons.mp hr with rfl | hr
    · exact List.find?_cons_of_pos _ (by rw [hk]; exact beq_self_eq_true _)
    · have hpa : (a.datetime == some k) = false := by
        rw [beq_eq_false_iff_ne]
        intro hak
        exact hp.1 r.datetime (List.mem_map_of_mem _ hr) (by rw [hak, hk])
      rw [List.find?_cons_of_neg _ (by simp [hpa])]
      exact ih hp.2 hr

/-- C3: UPSERT on an existing table: every key present in both current
state and incoming batch ends up mapped to the incoming row (all
columns), every key present only in the current state keeps its previous
row unchanged, and every incoming row whose key is new is inserted.
Hypotheses: all keys present and pairwise distinct on both sides, which
is what the cleaned bronze batch and a table maintained by this engine
provide; under them the Delta merge cannot abort. -/
theorem upsert_post_state (t b : List Row)
    (htu : UniqueKeys t) (hbu : UniqueKeys b) :
    ∃ t1, mergeRows t b = some t1 ∧
      (∀ s ∈ b, ∀ k, s.datetime = some k →
        (∃ r ∈ t, r.datetime = some k) → lookupKey t1 k = some s) ∧
      (∀ r ∈ t, ∀ k, r.datetime = some k →
        (∀ s ∈ b, s.datetime ≠ some k) → lookupKey t1 k = some r) ∧
      (∀ s ∈ b, (∀ r ∈ t, r.datetime ≠ s.datetime) → s ∈ t1) := by
  have he : mergeError t b = false :=
    mergeError_false_iff.mpr fun x _ => filter_keyMatch_len_le_one hbu x
  refine ⟨t.map (updatedRow b) ++ mergeInserts t b, ?_, ?_, ?_, ?_⟩
  · unfold mergeRows
    rw [he]
    simp only [Bool.false_eq_true, if_false]
  · -- key in both: incoming row wins
    intro s hs k hsk ⟨t0, ht0, ht0k⟩
    have hfmap : (t.map (updatedRow b)).find? (fun r => r.datetime == some k)
        = some (updatedRow b t0) := by
      rw [List.find?_map]
      have hcomp : ((fun r => r.datetime == some k) ∘ updatedRow b)
          = fun r => r.datetime == some k := by
        funext r
        simp only [Function.comp_apply, updatedRow_dt]
      rw [hcomp, find?_dt_unique htu ht0 ht0k]
      rfl
    have hupd : updatedRow b t0 = s := by
      have hmem : s ∈ b.filter (fun x => keyMatch x t0) :=
        List.mem_filter.mpr ⟨hs, keyMatch_true_iff.mpr ⟨k, hsk, ht0k⟩⟩
      have hfil : b.filter (fun x => keyMatch x t0) = [s] :=
        singleton_of_length_le_one (filter_keyMatch_len_le_one hbu t0) hmem
      unfold updatedRow
      rw [find?_eq_head_filter, hfil]
      rfl
    unfold lookupKey
    rw [List.find?_append, hfmap, hupd]
    rfl
  · -- key only in current state: row unchanged
    intro r hr k hrk hnone
    have hupd : updatedRow b r = r := by
      unfold updatedRow
      have hnf : b.find? (fun s => keyMatch s r) = none := by
        apply List.find?_eq_none.mpr
        intro s hs hks
        rcases keyMatch_true_iff.mp hks with ⟨k2, hsk2, hrk2⟩
        have : k2 = k := Option.some_inj.mp (hrk2.symm.trans hrk)
        exact hnone s hs (this ▸ hsk2)
      rw [hnf]
    have hfmap : (t.map (updatedRow b)).find? (fun x => x.datetime == some k)
        = some (updatedRow b r) := by
      rw [List.find?_map]
      have hcomp : ((fun x => x.datetime == some k) ∘ updatedRow b)
          = fun x => x.datetime == some k := by
        funext x
        simp only [Function.comp_apply, updatedRow_dt]
      rw [hcomp, find?_dt_unique htu hr hrk]
      rfl
    unfold lookupKey
    rw [List.find?_append, hfmap, hupd]
    rfl
  · -- new key: inserted
    intro s hs hnew
    refine List.mem_append.mpr (Or.inr (List.mem_filter.mpr ⟨hs, ?_⟩))
    have hany : t.any (fun tt => keyMatch s tt) = false := by
      apply List.any_eq_false.mpr
      intro tt htt hk
      rcases keyMatch_true_iff.mp hk with ⟨d, hsd, httd⟩
      exact hnew tt htt (by rw [httd, hsd])
    rw [hany]
    rfl

theorem upsert_post_state_witness :
    UniqueKeys [Row.mk (some 1) (some 10) 0, Row.mk (some 2) (some 20) 0] ∧
    UniqueKeys [Row.mk (some 2) (some 25) 1, Row.mk (some 3) (some 30) 1] ∧
    ∃ t1, mergeRows [Row.mk (some 1) (some 10) 0, Row.mk (some 2) (some 20) 0]
        [Row.mk (some 2) (some 25) 1, Row.mk (some 3) (some 30) 1] = some t1 ∧
      (∀ s ∈ [Row.mk (some 2) (some 25) 1, Row.mk (some 3) (some 30) 1],
        ∀ k, s.datetime = some k →
        (∃ r ∈ [Row.mk (some 1) (some 10) 0, Row.mk (some 2) (some 20) 0],
          r.datetime = some k) → lookupKey t1 k = some s) ∧
      (∀ r ∈ [Row.mk (some 1) (some 10) 0, Row.mk (some 2) (some 20) 0],
        ∀ k, r.datetime = some k →
        (∀ s ∈ [Row.mk (some 2) (some 25) 1, Row.mk (some 3) (some 30) 1],
          s.datetime ≠ some k) → lookupKey t1 k = some r) ∧
      (∀ s ∈ [Row.mk (some 2) (some 25) 1, Row.mk (some 3) (some 30) 1],
        (∀ r ∈ [Row.mk (some 1) (some 10) 0, Row.mk (some 2) (some 20) 0],
          r.datetime ≠ s.datetime) → s ∈ t1) :=
  ⟨by decide, by decide,
    upsert_post_state [Row.mk (some 1) (some 10) 0, Row.mk (some 2) (some 20) 0]
      [Row.mk (some 2) (some 25) 1, Row.mk (some 3) (some 30) 1]
      (by decide) (by decide)⟩

end UpsertCorrectness

section ReprBridge

theorem reprChars_small {n : Nat} (h0 : n ≠ 0) (h10 : n < 10) :
    reprChars n = [Nat.digitChar n] := by
  unfold reprChars
  rw [if_neg h0]
  have hd : Nat.digits 10 n = [n] := by
    rw [Nat.digits_def' (by norm_num : (1 : Nat) < 10) (Nat.pos_of_ne_zero h0),
      Nat.mod_eq_of_lt h10, Nat.div_eq_of_lt h10]
    simp
  rw [hd]
  rfl

theorem reprChars_step {n : Nat} (h : 10 ≤ n) :
    reprChars n = reprChars (n / 10) ++ [Nat.digitChar (n % 10)] := by
  have h0 : n ≠ 0 := by omega
  have hq : n / 10 ≠ 0 := by
    intro he
    have := (Nat.div_eq_zero_iff (by norm_num : 0 < 10)).mp he
    omega
  unfold reprChars
  rw [if_neg h0, if_neg hq,
    Nat.digits_def' (by norm_num : (1 : Nat) < 10) (Nat.pos_of_ne_zero h0),
    List.map_cons, List.reverse_cons]

theorem toDigitsCore_eq_reprChars :
    ∀ (fuel n : Nat) (ds : List Char), n < fuel →
      Nat.toDigitsCore 10 fuel n ds = reprChars n ++ ds := by
  intro fuel
  induction fuel with
  | zero => intro n ds h; omega
  | succ f ih =>
    intro n ds h
    simp only [Nat.toDigitsCore]
    by_cases h0 : n / 10 = 0
    · rw [if_pos h0]
      have hn10 : n < 10 := by
        by_contra hge
        have := Nat.div_eq_zero_iff (by norm_num : 0 < 10) |>.mp h0
        omega
      by_cases hz : n = 0
      · subst hz
        rfl
      · rw [reprChars_small hz hn10, Nat.mod_eq_of_lt hn10]
        rfl
    · rw [if_neg h0]
      have h10 : 10 ≤ n := by
        by_contra hlt
        exact h0 (Nat.div_eq_of_lt (by omega))
      have hdlt : n / 10 < n := Nat.div_lt_self (by omega) (by norm_num)
      have hlt : n / 10 < f := by omega
      rw [ih (n / 10) (Nat.digitChar (n % 10) :: ds) hlt, reprChars_step h10,
        List.append_assoc]
      rfl

theorem repr_eq_reprChars (n : Nat) :
    Nat.repr n = (reprChars n).asString := by
  show (Nat.toDigits 10 n).asString = _
  unfold Nat.toDigits
  rw [toDigitsCore_eq_reprChars (n + 1) n [] (Nat.lt_succ_self n),
    List.append_nil]

theorem digitChar_inj_lt :
    ∀ a < 10, ∀ b < 10, Nat.digitChar a = Nat.digitChar b → a = b := by
  decide

theorem map_digitChar_inj :
    ∀ (l1 l2 : List Nat), (∀ x ∈ l1, x < 10) → (∀ x ∈ l2, x < 10) →
      l1.map Nat.digitChar = l2.map Nat.digitChar → l1 = l2 := by
  intro l1
  induction l1 with
  | nil =>
    intro l2 _ _ h
    cases l2 with
    | nil => rfl
    | cons b bs => simp at h
  | cons a as ih =>
    intro l2 h1 h2 h
    cases l2 with
    | nil => simp at h
    | cons b bs =>
      simp only [List.map_cons, List.cons.injEq] at h
      have hab : a = b :=
        digitChar_inj_lt a (h1 a (List.mem_cons_self _ _))
          b (h2 b (List.mem_cons_self _ _)) h.1
      subst hab
      rw [ih bs (fun x hx => h1 x (List.mem_cons_of_mem _ hx))
        (fun x hx => h2 x (List.mem_cons_of_mem _ hx)) h.2]

theorem digits_eq_of_reprChars_eq {m n : Nat} (hm : m ≠ 0) (hn : n ≠ 0)
    (h : reprChars m = reprChars n) : Nat.digits 10 m = Nat.digits 10 n := by
  unfold reprChars at h
  rw [if_neg hm, if_neg hn] at h
  have h2 := congrArg List.reverse h
  rw [List.reverse_reverse, List.reverse_reverse] at h2
  exact map_digitChar_inj _ _
    (fun x hx => Nat.digits_lt_base (by norm_num) hx)
    (fun x hx => Nat.digits_lt_base (by norm_num) hx) h2

theorem reprChars_ne_zero_case {n : Nat} (hn : n ≠ 0) :
    reprChars n ≠ ['0'] := by
  intro h
  unfold reprChars at h
  rw [if_neg hn] at h
  have h2 := congrArg List.reverse h
  rw [List.reverse_reverse] at h2
  have hd : Nat.digits 10 n = [0] :=
    map_digitChar_inj _ _
      (fun x hx => Nat.digits_lt_base (by norm_num) hx)
      (fun x hx => by
        rcases List.mem_singleton.mp hx with rfl
        norm_num) h2
  have h0 := congrArg (Nat.ofDigits 10) hd
  rw [Nat.ofDigits_digits] at h0
  simp [Nat.ofDigits] at h0
  exact hn h0

theorem reprChars_inj {m n : Nat} (h : reprChars m = reprChars n) : m = n := by
  by_cases hm : m = 0
  · by_cases hn : n = 0
    · rw [hm, hn]
    · subst hm
      exact absurd h.symm (by simpa [reprChars] using reprChars_ne_zero_case hn)
  · by_cases hn : n = 0
    · subst hn
      exact absurd h (by simpa [reprChars] using reprChars_ne_zero_case hm)
    · have hd := digits_eq_of_reprChars_eq hm hn h
      have := congrArg (Nat.ofDigits 10) hd
      rwa [Nat.ofDigits_digits, Nat.ofDigits_digits] at this

theorem nat_repr_inj {m n : Nat} (h : Nat.repr m = Nat.repr n) : m = n := by
  rw [repr_eq_reprChars, repr_eq_reprChars] at h
  apply reprChars_inj
  have h2 := congrArg String.data h
  simpa [List.asString] using h2

theorem suffixedName_inj {base : String} {j k : Nat}
    (h : suffixedName base j = suffixedName base k) : j = k := by
  unfold suffixedName at h
  have hd := congrArg String.data h
  simp only [String.data_append] at hd
  have h1 : (Nat.repr j).data = (Nat.repr k).data :=
    List.append_inj_right hd (by simp)
  exact nat_repr_inj (String.ext h1)

end ReprBridge

section ColumnNames

theorem freshSuffix_not_mem (seen : List String) (base : String) :
    freshSuffix seen base ∉ seen := by
  unfold freshSuffix
  cases hf : (((List.range (seen.length + 1)).map
      (fun i => suffixedName base (i + 1))).find?
      (fun c => !(seen.contains c))) with
  | some c =>
    intro hmem
    have hp := List.find?_some hf
    rw [Bool.not_eq_true'] at hp
    have hcontra : seen.contains c = true := List.elem_eq_true_of_mem hmem
    rw [hcontra] at hp
    cases hp
  | none =>
    exfalso
    have hall := List.find?_eq_none.mp hf
    have hsub : ∀ c ∈ (List.range (seen.length + 1)).map
        (fun i => suffixedName base (i + 1)), c ∈ seen := by
      intro c hc
      have h2 := hall c hc
      cases hcb : seen.contains c with
      | true => exact List.mem_of_elem_eq_true hcb
      | false =>
        exfalso
        apply h2
        rw [hcb]
        rfl
    have hnd : ((List.range (seen.length + 1)).map
        (fun i => suffixedName base (i + 1))).Nodup := by
      refine List.Nodup.map ?_ (List.nodup_range _)
      intro i j hij
      have := suffixedName_inj hij
      omega
    have hlen : ((List.range (seen.length + 1)).map
        (fun i => suffixedName base (i + 1))).length = seen.length + 1 := by
      rw [List.length_map, List.length_range]
    have hcard : seen.length + 1 ≤ seen.length := by
      calc seen.length + 1
          = ((List.range (seen.length + 1)).map
              (fun i => suffixedName base (i + 1))).length := hlen.symm
        _ = ((List.range (seen.length + 1)).map
              (fun i => suffixedName base (i + 1))).toFinset.card :=
            (List.toFinset_card_of_nodup hnd).symm
        _ ≤ seen.toFinset.card := by
            apply Finset.card_le_card
            intro x hx
            exact List.mem_toFinset.mpr (hsub x (List.mem_toFinset.mp hx))
        _ ≤ seen.length := seen.toFinset_card_le
    omega

theorem freshName_not_mem (seen : List String) (base : String) :
    freshName seen base ∉ seen := by
  unfold freshName
  by_cases hb : base ∈ seen
  · rw [if_pos hb]
    exact freshSuffix_not_mem seen base
  · rw [if_neg hb]
    exact hb

theorem buildColumnsGo_spec : ∀ (cs seen : List String),
    (buildColumnsGo seen cs).Pairwise (· ≠ ·) ∧
      ∀ x ∈ buildColumnsGo seen cs, x ∉ seen := by
  intro cs
  induction cs with
  | nil =>
    intro seen
    exact ⟨List.Pairwise.nil, by intro x hx; cases hx⟩
  | cons c cs ih =>
    intro seen
    obtain ⟨hpw, hnot⟩ := ih (freshName seen (normalizeHeader c) :: seen)
    constructor
    · refine List.Pairwise.cons ?_ hpw
      intro y hy he
      exact hnot y hy (he ▸ List.mem_cons_self _ _)
    · intro x hx
      rcases List.mem_cons.mp hx with rfl | hx
      · exact freshName_not_mem seen _
      · intro hxs
        exact hnot x hx (List.mem_cons_of_mem _ hxs)

/-- C9: the column renaming of `build_static_table` is injective on
every input record: each header is lower-cased and underscore-joined
after dropping its leading index token, a name already chosen receives
the smallest positive integer suffix `_k` not yet in use, and the
resulting column list never contains two equal names. -/
theorem build_static_columns_injective (cols : List String) :
    (normalizeColumns cols).Pairwise (· ≠ ·) :=
  (buildColumnsGo_spec cols []).1

end ColumnNames

section RemoveDupCols

theorem dupSuffix_inj {a b : String} (h : a ++ "_dup" = b ++ "_dup") :
    a = b := by
  have hd := congrArg String.data h
  simp only [String.data_append] at hd
  exact String.ext (List.append_inj_left' hd rfl)

theorem removeDupColsGo_mem : ∀ (cs seen : List String) (x : String),
    x ∈ removeDupColsGo seen cs →
      (x ∈ cs ∧ x ∉ seen) ∨ ∃ c ∈ cs, x = c ++ "_dup" := by
  intro cs
  induction cs with
  | nil =>
    intro seen x hx
    cases hx
  | cons c cs ih =>
    intro seen x hx
    by_cases hc : c ∈ seen
    · simp only [removeDupColsGo, if_pos hc] at hx
      rcases List.mem_cons.mp hx with rfl | hx
      · exact Or.inr ⟨c, List.mem_cons_self _ _, rfl⟩
      · rcases ih seen x hx with ⟨hm, hns⟩ | ⟨y, hy, he⟩
        · exact Or.inl ⟨List.mem_cons_of_mem _ hm, hns⟩
        · exact Or.inr ⟨y, List.mem_cons_of_mem _ hy, he⟩
    · simp only [removeDupColsGo, if_neg hc] at hx
      rcases List.mem_cons.mp hx with rfl | hx
      · exact Or.inl ⟨List.mem_cons_self _ _, hc⟩
      · rcases ih (c :: seen) x hx with ⟨hm, hns⟩ | ⟨y, hy, he⟩
        · exact Or.inl ⟨List.mem_cons_of_mem _ hm,
            fun hs => hns (List.mem_cons_of_mem _ hs)⟩
        · exact Or.inr ⟨y, List.mem_cons_of_mem _ hy, he⟩

theorem removeDupColsGo_pairwise : ∀ (cs seen : List String),
    (∀ c ∈ cs, cs.count c + (if c ∈ seen then 1 else 0) ≤ 2) →
    (∀ c ∈ cs, (c ++ "_dup") ∉ cs) →
    (∀ c ∈ cs, (c ++ "_dup") ∉ seen) →
    (removeDupColsGo seen cs).Pairwise (· ≠ ·) := by
  intro cs
  induction cs with
  | nil =>
    intro seen _ _ _
    exact List.Pairwise.nil
  | cons c cs ih =>
    intro seen hg1 hg2 hg3
    have hcnt := hg1 c (List.mem_cons_self _ _)
    rw [List.count_cons_self] at hcnt
    by_cases hc : c ∈ seen
    · rw [if_pos hc] at hcnt
      simp only [removeDupColsGo, if_pos hc]
      refine List.Pairwise.cons ?_ ?_
      · intro y hy he
        rcases removeDupColsGo_mem cs seen y hy with ⟨hm, _⟩ | ⟨x, hx, hxe⟩
        · exact hg2 c (List.mem_cons_self _ _)
            (List.mem_cons_of_mem _ (he ▸ hm))
        · have hcx : c = x := dupSuffix_inj (he.trans hxe)
          have h1 : 1 ≤ cs.count c := List.count_pos_iff.mpr (hcx ▸ hx)
          omega
      · apply ih seen
        · intro x hx
          have := hg1 x (List.mem_cons_of_mem _ hx)
          have hle : cs.count x ≤ (c :: cs).count x := by
            rw [List.count_cons]
            omega
          omega
        · intro x hx hdup
          exact hg2 x (List.mem_cons_of_mem _ hx) (List.mem_cons_of_mem _ hdup)
        · intro x hx
          exact hg3 x (List.mem_cons_of_mem _ hx)
    · rw [if_neg hc] at hcnt
      simp only [removeDupColsGo, if_neg hc]
      refine List.Pairwise.cons ?_ ?_
      · intro y hy he
        rcases removeDupColsGo_mem cs (c :: seen) y hy with ⟨_, hns⟩ | ⟨x, hx, hxe⟩
        · exact hns (he ▸ List.mem_cons_self _ _)
        · exact hg2 x (List.mem_cons_of_mem _ hx)
            ((he.trans hxe) ▸ List.mem_cons_self _ _)
      · apply ih (c :: seen)
        · intro x hx
          by_cases hxc : x = c
          · subst hxc
            have hxin : x ∈ x :: seen := List.mem_cons_self _ _
            rw [if_pos hxin]
            omega
          · have := hg1 x (List.mem_cons_of_mem _ hx)
            have hcx : (c :: cs).count x = cs.count x := by
              rw [List.count_cons,
                if_neg (by simp only [beq_iff_eq]; exact fun h => hxc h.symm),
                Nat.add_zero]
            have hin : (x ∈ c :: seen) ↔ (x ∈ seen) := by
              rw [List.mem_cons]
              constructor
              · rintro (he | hs)
                · exact absurd he hxc
                · exact hs
              · exact Or.inr
            rw [hcx] at this
            by_cases hxs : x ∈ seen
            · rw [if_pos (hin.mpr hxs)]
              rw [if_pos hxs] at this
              exact this
            · rw [if_neg (fun hmem => hxs (hin.mp hmem))]
              rw [if_neg hxs] at this
              exact this
        · intro x hx hdup
          exact hg2 x (List.mem_cons_of_mem _ hx) (List.mem_cons_of_mem _ hdup)
        · intro x hx
          rw [List.mem_cons]
          rintro (he | hs)
          · exact hg2 x (List.mem_cons_of_mem _ hx) (he ▸ List.mem_cons_self _ _)
          · exact hg3 x (List.mem_cons_of_mem _ hx) hs

/-- C8, counterexample: on three equal column names the code produces the
constant suffix "_dup" twice — there is no numeric suffix and the result
is not pairwise distinct. -/
theorem remove_duplicate_columns_not_injective :
    remove_duplicate_columns ["a", "a", "a"] = ["a", "a_dup", "a_dup"] ∧
      ¬ (remove_duplicate_columns ["a", "a", "a"]).Pairwise (· ≠ ·) := by
  constructor
  · rfl
  · decide

/-- C8, amended: after `remove_duplicate_columns`, the first occurrence
of a name keeps the base name and each later colliding occurrence
receives the constant suffix "_dup" (not a numbered one); the resulting
names are pairwise distinct provided no name occurs more than twice and
no input name equals another input name with "_dup" appended. -/
theorem remove_duplicate_columns_pairwise (cols : List String)
    (h1 : ∀ c ∈ cols, cols.count c ≤ 2)
    (h2 : ∀ c ∈ cols, (c ++ "_dup") ∉ cols) :
    (remove_duplicate_columns cols).Pairwise (· ≠ ·) := by
  unfold remove_duplicate_columns
  apply removeDupColsGo_pairwise
  · intro c hc
    rw [if_neg (List.not_mem_nil c)]
    have := h1 c hc
    omega
  · exact h2
  · intro c _ h
    exact List.not_mem_nil _ h

theorem remove_duplicate_columns_pairwise_witness :
    (∀ c ∈ ["a", "b", "a"], (["a", "b", "a"] : List String).count c ≤ 2) ∧
    (∀ c ∈ ["a", "b", "a"], (c ++ "_dup") ∉ (["a", "b", "a"] : List String)) ∧
    (remove_duplicate_columns ["a", "b", "a"]).Pairwise (· ≠ ·) :=
  ⟨by decide, by decide,
    remove_duplicate_columns_pairwise ["a", "b", "a"] (by decide) (by decide)⟩

end RemoveDupCols

section StoragePipeline

/-- C5, counterexample: a malformed / unreadable table (a storage
failure that is not "table does not exist") produces exactly the same
caller-visible result as an absent table — `None` — so it is not
surfaced as a distinct StorageFailure; and a `write_delta` whose local
write raises (with no MinIO configured) returns nothing and leaves both
stores untouched: the failure is swallowed. -/
theorem storage_failure_swallowed_counterexample :
    safe_read_delta none TableState.corrupt
        = safe_read_delta none TableState.absent ∧
      safe_read_delta none TableState.corrupt = none ∧
      write_delta (WriteEnv.mk false false true) WriteMode.appendMode
          [Row.mk (some 1) (some 2) 0]
          (Stores.mk TableState.absent TableState.absent)
        = Stores.mk TableState.absent TableState.absent :=
  ⟨rfl, rfl, rfl⟩

/-- C5, amended: storage failures are logged and swallowed, not
surfaced. A failing read — regardless of cause — is reported to the
caller as `None`, indistinguishable from an absent table; a MinIO read
failure silently falls back to the local copy; and when the local write
also fails (with MinIO unconfigured or failing) `write_delta` returns
normally with both stores unchanged. -/
theorem storage_failures_swallowed (rows df : List Row)
    (env : WriteEnv) (mode : WriteMode) (st : Stores)
    (hs3 : env.s3Configured = false ∨ env.s3Fails = true)
    (hloc : env.localFails = true) :
    safe_read_delta none TableState.corrupt = none ∧
      safe_read_delta none TableState.absent = none ∧
      safe_read_delta (some TableState.corrupt) (TableState.table rows)
        = some rows ∧
      write_delta env mode df st = st := by
  refine ⟨rfl, rfl, rfl, ?_⟩
  rcases hs3 with h | h <;> simp [write_delta, h, hloc]

theorem storage_failures_swallowed_witness :
    ((WriteEnv.mk true true true).s3Configured = false ∨
      (WriteEnv.mk true true true).s3Fails = true) ∧
    (WriteEnv.mk true true true).localFails = true ∧
    (safe_read_delta none TableState.corrupt = none ∧
      safe_read_delta none TableState.absent = none ∧
      safe_read_delta (some TableState.corrupt)
          (TableState.table [Row.mk (some 3) (some 4) 1])
        = some [Row.mk (some 3) (some 4) 1] ∧
      write_delta (WriteEnv.mk true true true) WriteMode.overwriteMode []
          (Stores.mk (TableState.table []) TableState.absent)
        = Stores.mk (TableState.table []) TableState.absent) :=
  ⟨by decide, by decide,
    storage_failures_swallowed [Row.mk (some 3) (some 4) 1] []
      (WriteEnv.mk true true true) WriteMode.overwriteMode
      (Stores.mk (TableState.table []) TableState.absent)
      (by decide) (by decide)⟩

/-- C6, counterexample: when the bronze crypto read fails (or the table
is absent) the script calls `exit(0)` before processing anything, so the
independent FX datasets of the same run are never reached — a failure in
one dataset's input aborts the whole layer pipeline instead of being
recorded and skipped. -/
theorem pipeline_abort_counterexample :
    runTransformations none (some [Row.mk (some 1) (some 2) 0]) (some [])
        = ([], RunTerm.earlyExit) ∧
      "silver_fx" ∉ (runTransformations none
        (some [Row.mk (some 1) (some 2) 0]) (some [])).1 :=
  ⟨rfl, by decide⟩

/-- C6, amended: only write failures are isolated (`write_delta`
swallows them without affecting control flow). A failed or absent
bronze-crypto read terminates the run via `exit(0)` before every
dataset; a failed silver-crypto read at the gold stage raises an
uncaught exception that skips both gold datasets; all datasets are
reached, with normal termination, exactly when those two reads succeed
(the FX pair additionally requires the bronze FX read to produce a
frame). -/
theorem pipeline_partial_isolation (c s : List Row)
    (bf : Option (List Row)) :
    runTransformations none bf (some s) = ([], RunTerm.earlyExit) ∧
      (runTransformations (some c) bf none).2 = RunTerm.crash ∧
      "gold_crypto" ∉ (runTransformations (some c) bf none).1 ∧
      "gold_fx" ∉ (runTransformations (some c) bf none).1 ∧
      (runTransformations (some c) bf (some s)).2 = RunTerm.normal ∧
      "silver_crypto" ∈ (runTransformations (some c) bf (some s)).1 ∧
      "gold_crypto" ∈ (runTransformations (some c) bf (some s)).1 ∧
      (bf.isSome = true →
        "silver_fx" ∈ (runTransformations (some c) bf (some s)).1 ∧
        "gold_fx" ∈ (runTransformations (some c) bf (some s)).1) := by
  cases bf with
  | none =>
    refine ⟨rfl, rfl, ?_, ?_, rfl, ?_, ?_, ?_⟩
    · show "gold_crypto" ∉ (["silver_crypto"] : List String)
      decide
    · show "gold_fx" ∉ (["silver_crypto"] : List String)
      decide
    · show "silver_crypto" ∈ (["silver_crypto", "gold_crypto"] : List String)
      decide
    · show "gold_crypto" ∈ (["silver_crypto", "gold_crypto"] : List String)
      decide
    · intro h
      cases h
  | some fx =>
    refine ⟨rfl, rfl, ?_, ?_, rfl, ?_, ?_, fun _ => ⟨?_, ?_⟩⟩
    · show "gold_crypto" ∉ (["silver_crypto", "silver_fx"] : List String)
      decide
    · show "gold_fx" ∉ (["silver_crypto", "silver_fx"] : List String)
      decide
    · show "silver_crypto" ∈
        (["silver_crypto", "silver_fx", "gold_crypto", "gold_fx"] : List String)
      decide
    · show "gold_crypto" ∈
        (["silver_crypto", "silver_fx", "gold_crypto", "gold_fx"] : List String)
      decide
    · show "silver_fx" ∈
        (["silver_crypto", "silver_fx", "gold_crypto", "gold_fx"] : List String)
      decide
    · show "gold_fx" ∈
        (["silver_crypto", "silver_fx", "gold_crypto", "gold_fx"] : List String)
      decide

theorem pipeline_partial_isolation_witness :
    runTransformations none (some [])
        (some [Row.mk (some 1) (some 2) 0]) = ([], RunTerm.earlyExit) ∧
      (runTransformations (some [Row.mk (some 0) (some 1) 0]) (some [])
        none).2 = RunTerm.crash ∧
      "gold_crypto" ∉ (runTransformations (some [Row.mk (some 0) (some 1) 0])
        (some []) none).1 ∧
      "gold_fx" ∉ (runTransformations (some [Row.mk (some 0) (some 1) 0])
        (some []) none).1 ∧
      (runTransformations (some [Row.mk (some 0) (some 1) 0]) (some [])
        (some [Row.mk (some 1) (some 2) 0])).2 = RunTerm.normal ∧
      "silver_crypto" ∈ (runTransformations (some [Row.mk (some 0) (some 1) 0])
        (some []) (some [Row.mk (some 1) (some 2) 0])).1 ∧
      "gold_crypto" ∈ (runTransformations (some [Row.mk (some 0) (some 1) 0])
        (some []) (some [Row.mk (some 1) (some 2) 0])).1 ∧
      ((some ([] : List Row)).isSome = true →
        "silver_fx" ∈ (runTransformations (some [Row.mk (some 0) (some 1) 0])
          (some []) (some [Row.mk (some 1) (some 2) 0])).1 ∧
        "gold_fx" ∈ (runTransformations (some [Row.mk (some 0) (some 1) 0])
          (some []) (some [Row.mk (some 1) (some 2) 0])).1) :=
  pipeline_partial_isolation [Row.mk (some 0) (some 1) 0]
    [Row.mk (some 1) (some 2) 0] (some [])

/-- C7: an upstream response with an unexpected shape is NOT treated as
"no data": a JSON object without a "Time Series ..." key (for example
AlphaVantage's rate-limit notice, whose only key is "Note") makes
`build_dynamic_table` return `None` and the ingestion block then raises
an uncaught TypeError at `df_dynamic["ingestion_timestamp"] = ...`
(ingestion.py:250); the same response without the
"Realtime Currency Exchange Rate" key raises AttributeError at
`remove_duplicate_columns(None)` (ingestion.py:321) and KeyError in
main.py:78. Only a non-JSON body or HTTP failure (`get_data` → `None`)
is handled as "no data". -/
theorem malformed_response_crashes :
    ingest_dynamic (some (ApiResponse.mk ["Note"] [] []))
        = PyOutcome.raises "TypeError" ∧
      ingest_static (some (ApiResponse.mk ["Note"] [] []))
        = PyOutcome.raises "AttributeError" ∧
      ingest_static_main (some (ApiResponse.mk ["Note"] [] []))
        = PyOutcome.raises "KeyError" ∧
      ingest_dynamic none = PyOutcome.ok none ∧
      ingest_static none = PyOutcome.ok none := by
  refine ⟨?_, ?_, ?_, rfl, rfl⟩ <;> decide

end StoragePipeline
